import Mathlib

/-!
# Verification of the Wordle C program (lexicon, feedback engine, word sources)

Shallow embedding of `src/lexicon.c`, `src/io.c` and `src/wordle.c`.
Words are modelled as lists of byte values (`List Nat`); a C string is its
letter sequence, the NUL terminator being implicit.  Machine integers are
modelled as `Nat`/`Int` with explicit wrap-around where it matters.
-/

namespace Wordle

/-- A word: the sequence of byte values of a NUL-terminated C string
(the terminator itself is not part of the list; stored words never
contain interior NUL bytes). -/
abbrev Word := List Nat

/-- Maximum length of a word on the word list (`WORD_LEN` in `lexicon.h`). -/
def WORD_LEN : Nat := 5

/-- Maximum number of words on the word list (`WORD_LIMIT` in `lexicon.h`). -/
def WORD_LIMIT : Nat := 100000

/-- Sign of C `strcmp` on NUL-free strings: compare byte by byte, the first
difference decides; a proper prefix is smaller (its NUL, value 0, compares
below any letter).  Only the sign of `strcmp` is ever inspected by the
program, so the result is normalised to `-1`, `0`, `1`. -/
def strcmp : Word → Word → Int
  | [], [] => 0
  | [], _ :: _ => -1
  | _ :: _, [] => 1
  | a :: as, b :: bs => if a < b then -1 else if b < a then 1 else strcmp as bs

theorem strcmp_self (a : Word) : strcmp a a = 0 := by
  induction a with
  | nil => rfl
  | cons x xs ih => simp [strcmp, ih]

theorem strcmp_eq_zero_iff {a b : Word} : strcmp a b = 0 ↔ a = b := by
  induction a generalizing b with
  | nil => cases b <;> simp [strcmp]
  | cons x xs ih =>
    cases b with
    | nil => simp [strcmp]
    | cons y ys =>
      by_cases hxy : x < y
      · simp [strcmp, hxy]
        intro h; omega
      · by_cases hyx : y < x
        · simp [strcmp, hxy, hyx]
          intro h; omega
        · have hxy2 : x = y := by omega
          subst hxy2
          simp [strcmp, ih]

theorem strcmp_swap (a b : Word) : strcmp b a = -strcmp a b := by
  induction a generalizing b with
  | nil => cases b <;> simp [strcmp]
  | cons x xs ih =>
    cases b with
    | nil => simp [strcmp]
    | cons y ys =>
      by_cases hxy : x < y
      · have hyx : ¬ y < x := by omega
        simp [strcmp, hxy, hyx]
      · by_cases hyx : y < x
        · simp [strcmp, hxy, hyx]
        · simp [strcmp, hxy, hyx, ih]

theorem strcmp_cases (a b : Word) : strcmp a b = -1 ∨ strcmp a b = 0 ∨ strcmp a b = 1 := by
  induction a generalizing b with
  | nil => cases b <;> simp [strcmp]
  | cons x xs ih =>
    cases b with
    | nil => simp [strcmp]
    | cons y ys =>
      by_cases hxy : x < y
      · simp [strcmp, hxy]
      · by_cases hyx : y < x
        · simp [strcmp, hxy, hyx]
        · simp [strcmp, hxy, hyx, ih]

theorem strcmp_trans_neg {a b c : Word} (hab : strcmp a b = -1) (hbc : strcmp b c = -1) :
    strcmp a c = -1 := by
  induction a generalizing b c with
  | nil =>
    cases b with
    | nil => simp [strcmp] at hab
    | cons y ys => cases c with
      | nil => simp [strcmp] at hbc
      | cons z zs => simp [strcmp]
  | cons x xs ih =>
    cases b with
    | nil => simp [strcmp] at hab
    | cons y ys =>
      cases c with
      | nil => simp [strcmp] at hbc
      | cons z zs =>
        by_cases hxy : x < y
        · -- x < y; from hbc, y ≤ z, hence x < z
          have hyz : y < z ∨ (y = z) := by
            by_cases h1 : y < z
            · exact Or.inl h1
            · by_cases h2 : z < y
              · simp [strcmp, h1, h2] at hbc
              · exact Or.inr (by omega)
          have hxz : x < z := by omega
          simp [strcmp, hxz]
        · by_cases hyx : y < x
          · simp [strcmp, hxy, hyx] at hab
          · -- x = y
            have hxy2 : x = y := by omega
            subst hxy2
            simp [strcmp, hxy] at hab
            by_cases hxz : x < z
            · simp [strcmp, hxz]
            · by_cases hzx : z < x
              · simp [strcmp, hxz, hzx] at hbc
              · have : x = z := by omega
                subst this
                simp [strcmp, hxz] at hbc ⊢
                exact ih hab hbc

/-- The strict order induced by `strcmp` (what `strcmp(a,b) < 0` means). -/
def wlt (a b : Word) : Prop := strcmp a b = -1

/-- The non-strict order induced by `strcmp`. -/
def wle (a b : Word) : Prop := strcmp a b ≠ 1

instance : DecidablePred fun p : Word × Word => wlt p.1 p.2 :=
  fun p => inferInstanceAs (Decidable (strcmp p.1 p.2 = -1))

instance wlt_decidable (a b : Word) : Decidable (wlt a b) :=
  inferInstanceAs (Decidable (strcmp a b = -1))

instance wle_decidable (a b : Word) : Decidable (wle a b) :=
  inferInstanceAs (Decidable (strcmp a b ≠ 1))

theorem wle_of_wlt {a b : Word} (h : wlt a b) : wle a b := by
  unfold wlt at h; unfold wle; simp [h]

theorem wlt_irrefl (a : Word) : ¬ wlt a a := by
  unfold wlt; simp [strcmp_self]

theorem wlt_trans {a b c : Word} (hab : wlt a b) (hbc : wlt b c) : wlt a c :=
  strcmp_trans_neg hab hbc

theorem wlt_ne {a b : Word} (h : wlt a b) : a ≠ b := by
  intro he; subst he; exact wlt_irrefl a h

theorem wle_total (a b : Word) : wle a b ∨ wle b a := by
  unfold wle
  rcases strcmp_cases a b with h | h | h <;> simp [h, strcmp_swap a b]

theorem wle_iff {a b : Word} : wle a b ↔ wlt a b ∨ a = b := by
  unfold wle wlt
  rcases strcmp_cases a b with h | h | h
  · simp [h]
  · simp [h, strcmp_eq_zero_iff.mp h, strcmp_self]
  · constructor
    · intro hc; exact absurd h hc
    · rintro (h1 | rfl)
      · rw [h] at h1; exact absurd h1 (by decide)
      · rw [strcmp_self] at h; exact absurd h (by decide)

theorem wle_trans {a b c : Word} (hab : wle a b) (hbc : wle b c) : wle a c := by
  rcases wle_iff.mp hab with h1 | h1
  · rcases wle_iff.mp hbc with h2 | h2
    · exact wle_of_wlt (wlt_trans h1 h2)
    · subst h2; exact wle_of_wlt h1
  · subst h1; exact hbc

theorem wlt_of_wle_of_ne {a b : Word} (h : wle a b) (hne : a ≠ b) : wlt a b := by
  rcases wle_iff.mp h with h1 | h1
  · exact h1
  · exact absurd h1 hne

theorem not_wle_iff {a b : Word} : ¬ wle a b ↔ wlt b a := by
  unfold wle wlt
  rw [strcmp_swap a b]
  rcases strcmp_cases a b with h | h | h <;> rw [h] <;> decide

theorem strcmp_neg_iff {a b : Word} : strcmp a b < 0 ↔ wlt a b := by
  unfold wlt
  rcases strcmp_cases a b with h | h | h <;> rw [h] <;> decide

instance : IsTrans Word wlt := ⟨fun _ _ _ => wlt_trans⟩

/-! ## `merge` and `mergeSort` (`src/lexicon.c`)

The C `merge` walks the two halves with indices `leftIndex`, `rightIndex`
and fills `list[leftIndex + rightIndex]`; it takes from the left half iff
the right half is exhausted, or the left half still has elements and its
current element compares `strcmp < 0` against the right one.  The
recursive rendering below produces the same output positions in order. -/

def merge : List Word → List Word → List Word
  | [], right => right
  | left, [] => left
  | a :: as, b :: bs =>
    if strcmp a b < 0 then a :: merge as (b :: bs) else b :: merge (a :: as) bs
termination_by l r => l.length + r.length

/-- `copyArray(origList, start, fin)`: the elements of `origList` at indices
`start .. fin` inclusive (`fin - start + 1` of them). -/
def copyArray (origList : List Word) (start fin : Nat) : List Word :=
  (origList.drop start).take (fin + 1 - start)

/-- `mergeSort(list, n)` of `src/lexicon.c`, with an explicit fuel bounding
the recursion depth (the C function recurses unconditionally whenever
`n != 1`; `none` models non-termination within the given fuel). -/
def mergeSortF : Nat → List Word → Option (List Word)
  | 0, _ => none
  | fuel + 1, list =>
    if list.length = 1 then some list
    else
      let mid := list.length / 2
      match mergeSortF fuel (copyArray list 0 (mid - 1)),
            mergeSortF fuel (copyArray list mid (list.length - 1)) with
      | some left, some right => some (merge left right)
      | _, _ => none

/-- The sorted list computed by `mergeSort` on a nonempty list (for
nonempty lists a fuel of `list.length` is enough, see
`mergeSortF_complete`). -/
def mergeSort (list : List Word) : List Word :=
  (mergeSortF list.length list).getD list

/-- The duplicate scan from `sort()` in `src/lexicon.c`: checks whether
some pair of neighbours is `strcmp`-equal. -/
def hasAdjacentDup : List Word → Bool
  | a :: b :: rest => if strcmp a b = 0 then true else hasAdjacentDup (b :: rest)
  | _ => false

/-- `sort()` of `src/lexicon.c`: mergeSort the list, then exit fatally
(`none`, the spec's `DuplicateWord`) if two neighbours are identical. -/
def sort (list : List Word) : Option (List Word) :=
  if hasAdjacentDup (mergeSort list) then none else some (mergeSort list)

theorem merge_nil_left (r : List Word) : merge [] r = r := by
  cases r <;> simp [merge]

theorem merge_nil_right (l : List Word) : merge l [] = l := by
  cases l <;> simp [merge]

theorem merge_cons (a b : Word) (as bs : List Word) :
    merge (a :: as) (b :: bs) =
      if strcmp a b < 0 then a :: merge as (b :: bs) else b :: merge (a :: as) bs := by
  simp [merge]

theorem merge_perm (l r : List Word) : List.Perm (merge l r) (l ++ r) := by
  induction l, r using merge.induct with
  | case1 right => simp [merge_nil_left]
  | case2 left h => simp [merge_nil_right]
  | case3 a as b bs hlt ih =>
    rw [merge_cons, if_pos hlt]
    exact (ih.cons a)
  | case4 a as b bs hlt ih =>
    rw [merge_cons, if_neg hlt]
    exact (ih.cons b).trans List.perm_middle.symm

theorem mem_merge {x : Word} {l r : List Word} : x ∈ merge l r ↔ x ∈ l ∨ x ∈ r := by
  rw [(merge_perm l r).mem_iff, List.mem_append]

theorem merge_sorted {l r : List Word} (hl : l.Pairwise wle) (hr : r.Pairwise wle) :
    (merge l r).Pairwise wle := by
  induction l, r using merge.induct with
  | case1 right => simpa [merge_nil_left]
  | case2 left h => simpa [merge_nil_right]
  | case3 a as b bs hlt ih =>
    rw [merge_cons, if_pos hlt]
    rw [List.pairwise_cons] at hl ⊢
    refine ⟨?_, ih hl.2 hr⟩
    intro x hx
    rcases mem_merge.mp hx with hx | hx
    · exact hl.1 x hx
    · have hab : wle a b := wle_of_wlt (strcmp_neg_iff.mp hlt)
      rcases List.mem_cons.mp hx with rfl | hx
      · exact hab
      · exact wle_trans hab ((List.pairwise_cons.mp hr).1 x hx)
  | case4 a as b bs hlt ih =>
    rw [merge_cons, if_neg hlt]
    rw [List.pairwise_cons] at hr ⊢
    refine ⟨?_, ih hl hr.2⟩
    intro x hx
    have hba : wle b a := by
      rw [strcmp_neg_iff] at hlt
      unfold wle
      rw [strcmp_swap a b]
      rcases strcmp_cases a b with h | h | h
      · exact absurd (show wlt a b from h) hlt
      · rw [h]; decide
      · rw [h]; decide
    rcases mem_merge.mp hx with hx | hx
    · rcases List.mem_cons.mp hx with rfl | hx
      · exact hba
      · exact wle_trans hba ((List.pairwise_cons.mp hl).1 x hx)
    · exact hr.1 x hx

theorem copyArray_left (l : List Word) (m : Nat) (h : 1 ≤ m) :
    copyArray l 0 (m - 1) = l.take m := by
  unfold copyArray
  rw [List.drop_zero]
  congr 1
  omega

theorem copyArray_right (l : List Word) (m : Nat) (h : 1 ≤ l.length) :
    copyArray l m (l.length - 1) = l.drop m := by
  unfold copyArray
  have he : l.length - 1 + 1 - m = l.length - m := by omega
  rw [he, List.take_of_length_le]
  simp

/-- With fuel at least the length of the list, `mergeSort` on a nonempty
list halts and returns a `wle`-sorted permutation of its input. -/
theorem mergeSortF_complete : ∀ fuel (l : List Word), 1 ≤ l.length → l.length ≤ fuel →
    ∃ r, mergeSortF fuel l = some r ∧ List.Perm r l ∧ r.Pairwise wle := by
  intro fuel
  induction fuel with
  | zero => intro l h1 h2; omega
  | succ fuel ih =>
    intro l h1 h2
    by_cases hlen : l.length = 1
    · obtain ⟨a, rfl⟩ := List.length_eq_one.mp hlen
      exact ⟨[a], by simp [mergeSortF], List.Perm.refl _, List.pairwise_singleton _ _⟩
    · have hmid1 : 1 ≤ l.length / 2 := by omega
      have hle : copyArray l 0 (l.length / 2 - 1) = l.take (l.length / 2) :=
        copyArray_left l _ hmid1
      have hre : copyArray l (l.length / 2) (l.length - 1) = l.drop (l.length / 2) :=
        copyArray_right l _ h1
      obtain ⟨rl, hrl, hrlp, hrls⟩ := ih (l.take (l.length / 2))
        (by simp; omega) (by simp; omega)
      obtain ⟨rr, hrr, hrrp, hrrs⟩ := ih (l.drop (l.length / 2))
        (by simp; omega) (by simp; omega)
      refine ⟨merge rl rr, ?_, ?_, merge_sorted hrls hrrs⟩
      · simp only [mergeSortF]
        rw [if_neg hlen, hle, hre, hrl, hrr]
      · exact (merge_perm rl rr).trans
          ((hrlp.append hrrp).trans (by rw [List.take_append_drop]))

theorem mergeSort_spec (l : List Word) (h : 1 ≤ l.length) :
    List.Perm (mergeSort l) l ∧ (mergeSort l).Pairwise wle := by
  obtain ⟨r, hr, hp, hs⟩ := mergeSortF_complete l.length l h le_rfl
  unfold mergeSort
  rw [hr]
  exact ⟨hp, hs⟩

theorem hasAdjacentDup_cons (a b : Word) (rest : List Word) :
    hasAdjacentDup (a :: b :: rest) =
      if strcmp a b = 0 then true else hasAdjacentDup (b :: rest) := rfl

theorem hasAdjacentDup_eq_false_iff (l : List Word) :
    hasAdjacentDup l = false ↔ List.Chain' (fun a b => ¬ a = b) l := by
  induction l with
  | nil => simp [hasAdjacentDup]
  | cons a rest ih =>
    cases rest with
    | nil => simp [hasAdjacentDup]
    | cons b rest2 =>
      rw [List.chain'_cons, ← ih, hasAdjacentDup_cons]
      by_cases h : strcmp a b = 0
      · rw [if_pos h]
        simp [strcmp_eq_zero_iff.mp h]
      · rw [if_neg h]
        have hne : ¬ a = b := fun he => h (he ▸ strcmp_self a)
        simp [hne]

theorem chain_wlt_of_sorted {l : List Word} (hs : l.Pairwise wle)
    (hc : List.Chain' (fun a b => ¬ a = b) l) : List.Chain' wlt l := by
  induction l with
  | nil => simp
  | cons a rest ih =>
    cases rest with
    | nil => simp
    | cons b rest2 =>
      rw [List.chain'_cons] at hc ⊢
      rw [List.pairwise_cons] at hs
      refine ⟨?_, ih hs.2 hc.2⟩
      exact wlt_of_wle_of_ne (hs.1 b (by simp)) hc.1

theorem nodup_of_sorted_noAdjDup {l : List Word} (hs : l.Pairwise wle)
    (hd : hasAdjacentDup l = false) : l.Nodup := by
  have hw : l.Pairwise wlt :=
    List.chain'_iff_pairwise.mp (chain_wlt_of_sorted hs ((hasAdjacentDup_eq_false_iff l).mp hd))
  exact hw.imp fun h => wlt_ne h

theorem not_nodup_of_hasAdjacentDup {l : List Word} (hd : hasAdjacentDup l = true) :
    ¬ l.Nodup := by
  induction l with
  | nil => simp [hasAdjacentDup] at hd
  | cons a rest ih =>
    cases rest with
    | nil => simp [hasAdjacentDup] at hd
    | cons b rest2 =>
      unfold hasAdjacentDup at hd
      by_cases h : strcmp a b = 0
      · have : a = b := strcmp_eq_zero_iff.mp h
        subst this
        intro hn
        exact (List.nodup_cons.mp hn).1 (by simp)
      · rw [if_neg h] at hd
        intro hn
        exact ih hd (List.nodup_cons.mp hn).2

/-- The behaviour of `sort()`: fatal `DuplicateWord` exactly on lists with a
repeated word, otherwise a strictly ascending permutation of the input. -/
theorem sort_spec (l : List Word) (h : 1 ≤ l.length) :
    (sort l = none ↔ ¬ l.Nodup) ∧
      ∀ s, sort l = some s → List.Perm s l ∧ List.Chain' wlt s := by
  obtain ⟨hperm, hsorted⟩ := mergeSort_spec l h
  unfold sort
  by_cases hd : hasAdjacentDup (mergeSort l) = true
  · rw [if_pos hd]
    exact ⟨⟨fun _ hn => not_nodup_of_hasAdjacentDup hd (hperm.nodup_iff.mpr hn),
      fun _ => rfl⟩, fun s hs => Option.noConfusion hs⟩
  · rw [if_neg hd]
    have hd2 : hasAdjacentDup (mergeSort l) = false := by simpa using hd
    have hchain : List.Chain' wlt (mergeSort l) :=
      chain_wlt_of_sorted hsorted ((hasAdjacentDup_eq_false_iff _).mp hd2)
    have hnodup : (mergeSort l).Nodup := nodup_of_sorted_noAdjDup hsorted hd2
    refine ⟨⟨fun hc => Option.noConfusion hc, fun hn => ?_⟩, fun s hs => ?_⟩
    · exact absurd (hperm.nodup_iff.mp hnodup) hn
    · obtain rfl := Option.some.inj hs
      exact ⟨hperm, hchain⟩

/-! ## `chooseWord` (`src/lexicon.c`)

`randomIndex = ( seed % wordListLen ) * MULTIPLIER % wordListLen`, computed
on C `long` (signed 64-bit) values; `%` on `long` truncates toward zero
(`Int.tmod`).  `chooseWordIndex` is the same formula in unbounded
arithmetic; `chooseWordIndex64` wraps the one intermediate that could
overflow into the signed 64-bit range. -/

/-- Large prime multiplier used to choose a word pseudo-randomly
(`MULTIPLIER` in `src/lexicon.c`). -/
def MULTIPLIER : Nat := 4611686018453

/-- The index formula of `chooseWord`, in exact (unbounded) arithmetic. -/
def chooseWordIndex (seed n : Nat) : Nat := seed % n * MULTIPLIER % n

/-- Reduction of a mathematical integer into the signed 64-bit range, the
value a C `long` holds after wrap-around. -/
def wrap64 (x : Int) : Int := (x + 2 ^ 63) % 2 ^ 64 - 2 ^ 63

/-- The index formula of `chooseWord` as evaluated on C `long`s: truncated
`%`, with the product reduced to 64 signed bits. -/
def chooseWordIndex64 (seed n : Int) : Int :=
  Int.tmod (wrap64 (Int.tmod seed n * (MULTIPLIER : Int))) n

/-- `chooseWord( seed, word )`: copies the word at `randomIndex` out of the
word list (the copy of a modelled word is the word itself). -/
def chooseWord (list : List Word) (seed : Nat) : Word :=
  list.getD (chooseWordIndex seed list.length) []

/-! ## `binarySearch` and `inList` (`src/lexicon.c`)

`low`, `high` and `mid` are C `long`s; `mid = ( low + high ) / 2` uses C
division, which truncates toward zero (`Int.tdiv`).  The locals `mid` and
`result` are inlined. -/

theorem tdiv2_bounds {low high : Int} (h : low ≤ high) :
    low ≤ Int.tdiv (low + high) 2 ∧ Int.tdiv (low + high) 2 ≤ high := by
  by_cases hpos : 0 ≤ low + high
  · rw [Int.tdiv_eq_ediv hpos (by norm_num)]
    omega
  · have h1 : Int.tdiv (low + high) 2 = -(Int.tdiv (-(low + high)) 2) := by
      rw [Int.neg_tdiv]
      ring
    rw [h1, Int.tdiv_eq_ediv (by omega) (by norm_num)]
    omega

def binarySearch (list : List Word) (word : Word) (low high : Int) : Bool :=
  if low > high then false
  else
    if strcmp (list.getD ((Int.tdiv (low + high) 2).toNat) []) word = 0 then true
    else if strcmp (list.getD ((Int.tdiv (low + high) 2).toNat) []) word > 0 then
      binarySearch list word low (Int.tdiv (low + high) 2 - 1)
    else
      binarySearch list word (Int.tdiv (low + high) 2 + 1) high
termination_by (high + 1 - low).toNat
decreasing_by
  · have hb := tdiv2_bounds (by omega : low ≤ high)
    omega
  · have hb := tdiv2_bounds (by omega : low ≤ high)
    omega

/-- `inList( word )`: binary search between indices `0` and
`wordListLen - 1`. -/
def inList (list : List Word) (word : Word) : Bool :=
  binarySearch list word 0 ((list.length : Int) - 1)

theorem binarySearch_correct {list : List Word} {word : Word}
    (hs : list.Pairwise wlt) :
    ∀ low high : Int, 0 ≤ low → high < (list.length : Int) →
      (binarySearch list word low high = true ↔
        ∃ i : Nat, low ≤ (i : Int) ∧ (i : Int) ≤ high ∧ list.getD i [] = word) := by
  intro low high
  induction low, high using binarySearch.induct list word with
  | case1 low high hgt =>
    intro _ _
    rw [binarySearch.eq_def, if_pos hgt]
    constructor
    · intro hc; exact absurd hc (by simp)
    · rintro ⟨i, h1, h2, _⟩; omega
  | case2 low high hle heq =>
    intro hlow hhigh
    have hb := tdiv2_bounds (by omega : low ≤ high)
    rw [binarySearch.eq_def, if_neg hle, if_pos heq]
    constructor
    · intro _
      refine ⟨(Int.tdiv (low + high) 2).toNat, ?_, ?_, strcmp_eq_zero_iff.mp heq⟩
      · rw [Int.toNat_of_nonneg (by omega)]; omega
      · rw [Int.toNat_of_nonneg (by omega)]; omega
    · intro _; rfl
  | case3 low high hle heq hgt ih =>
    intro hlow hhigh
    have hb := tdiv2_bounds (by omega : low ≤ high)
    have hmidlen : ((Int.tdiv (low + high) 2).toNat : Int) = Int.tdiv (low + high) 2 :=
      Int.toNat_of_nonneg (by omega)
    rw [binarySearch.eq_def, if_neg hle, if_neg heq, if_pos hgt]
    rw [ih hlow (by omega)]
    constructor
    · rintro ⟨i, h1, h2, h3⟩
      exact ⟨i, h1, by omega, h3⟩
    · rintro ⟨i, h1, h2, h3⟩
      refine ⟨i, h1, ?_, h3⟩
      -- the found word is strictly above `word`, so is every later element
      have hwmid : wlt word (list.getD ((Int.tdiv (low + high) 2).toNat) []) := by
        unfold wlt
        rw [strcmp_swap]
        rcases strcmp_cases (list.getD ((Int.tdiv (low + high) 2).toNat) []) word
          with h | h | h
        · rw [h] at hgt; exact absurd hgt (by decide)
        · exact absurd h heq
        · rw [h]
      by_contra hcon
      have hicase : ((Int.tdiv (low + high) 2).toNat : Int) ≤ (i : Int) := by omega
      have hilen : i < list.length := by omega
      have hmlen : (Int.tdiv (low + high) 2).toNat < list.length := by omega
      by_cases hieq : (Int.tdiv (low + high) 2).toNat = i
      · rw [hieq] at heq
        rw [List.getD_eq_getElem list [] hilen] at heq h3
        exact heq (h3 ▸ strcmp_self word)
      · have hmi : (Int.tdiv (low + high) 2).toNat < i := by omega
        have hlt := List.pairwise_iff_getElem.mp hs _ _ hmlen hilen hmi
        rw [List.getD_eq_getElem list [] hmlen] at hwmid
        rw [List.getD_eq_getElem list [] hilen] at h3
        exact wlt_ne (wlt_trans hwmid hlt) h3.symm
  | case4 low high hle heq hgt ih =>
    intro hlow hhigh
    have hb := tdiv2_bounds (by omega : low ≤ high)
    have hmidlen : ((Int.tdiv (low + high) 2).toNat : Int) = Int.tdiv (low + high) 2 :=
      Int.toNat_of_nonneg (by omega)
    rw [binarySearch.eq_def, if_neg hle, if_neg heq, if_neg hgt]
    rw [ih (by omega) hhigh]
    constructor
    · rintro ⟨i, h1, h2, h3⟩
      exact ⟨i, by omega, h2, h3⟩
    · rintro ⟨i, h1, h2, h3⟩
      refine ⟨i, ?_, h2, h3⟩
      -- the probed word is strictly below `word`, so is every earlier element
      have hmidw : wlt (list.getD ((Int.tdiv (low + high) 2).toNat) []) word := by
        unfold wlt
        rcases strcmp_cases (list.getD ((Int.tdiv (low + high) 2).toNat) []) word
          with h | h | h
        · exact h
        · exact absurd h heq
        · rw [h] at hgt; exact absurd (by decide) hgt
      by_contra hcon
      have hicase : (i : Int) ≤ ((Int.tdiv (low + high) 2).toNat : Int) := by omega
      have hilen : i < list.length := by omega
      have hmlen : (Int.tdiv (low + high) 2).toNat < list.length := by omega
      by_cases hieq : i = (Int.tdiv (low + high) 2).toNat
      · rw [← hieq] at heq
        rw [List.getD_eq_getElem list [] hilen] at heq h3
        exact heq (h3 ▸ strcmp_self word)
      · have him : i < (Int.tdiv (low + high) 2).toNat := by omega
        have hlt := List.pairwise_iff_getElem.mp hs _ _ hilen hmlen him
        rw [List.getD_eq_getElem list [] hmlen] at hmidw
        rw [List.getD_eq_getElem list [] hilen] at h3
        exact wlt_ne (wlt_trans hlt hmidw) h3

theorem inList_iff {list : List Word} {word : Word} (hs : list.Pairwise wlt) :
    inList list word = true ↔ word ∈ list := by
  unfold inList
  rw [binarySearch_correct hs 0 ((list.length : Int) - 1) le_rfl (by omega)]
  rw [List.mem_iff_getElem]
  constructor
  · rintro ⟨i, h1, h2, h3⟩
    have hilen : i < list.length := by omega
    exact ⟨i, hilen, by rw [← List.getD_eq_getElem list [] hilen]; exact h3⟩
  · rintro ⟨i, hilen, h3⟩
    refine ⟨i, by omega, by omega, ?_⟩
    rw [List.getD_eq_getElem list [] hilen]; exact h3

/-! ## `processWord` (`src/wordle.c`)

The feedback engine.  A guess letter is printed green when it sits at the
right position, yellow when it can be tied to a so-far-unclaimed target
letter (scanning target positions left to right), and in the default
colour otherwise.  `targetLetterUsed` is the letter-tie truth table. -/

/-- The three printable colours of `processWord`. -/
inductive Color where
  | green
  | yellow
  | defaultColor
deriving DecidableEq

/-- The classifications named by the specification. -/
inductive Classification where
  | Correct
  | Present
  | Absent
deriving DecidableEq

/-- The reading of the printed colours stated by the specification:
green = Correct, yellow = Present, default = Absent. -/
def colorMeaning : Color → Classification
  | Color.green => Classification.Correct
  | Color.yellow => Classification.Present
  | Color.defaultColor => Classification.Absent

/-- The initialisation loop of `targetLetterUsed`:
`targetLetterUsed[ i ] = userWord[ i ] == targetWord[ i ]`. -/
def targetLetterUsedInit (userWord targetWord : Word) : List Bool :=
  List.zipWith (fun u t => decide (u = t)) userWord targetWord

/-- The inner `j` loop of `processWord`: scan the target word left to
right; at the first position `j` with `userWord[i] == targetWord[j]` and
`!targetLetterUsed[j]`, set `targetLetterUsed[j] = true` and stop
(`some` of the updated table); `none` when no position qualifies. -/
def claimFirst (c : Nat) : Word → List Bool → Option (List Bool)
  | t :: ts, u :: us =>
    if c = t ∧ u = false then some (true :: us)
    else (claimFirst c ts us).map (fun us2 => u :: us2)
  | _, _ => none

/-- The outer `i` loop of `processWord` over the guess letters (each paired
with the target letter at the same position), threading the
`targetLetterUsed` table and recording the colour each letter is printed
in. -/
def processWordGo (targetWord : Word) : List (Nat × Nat) → List Bool → List Color
  | [], _ => []
  | (u, t) :: rest, used =>
    if u = t then Color.green :: processWordGo targetWord rest used
    else
      match claimFirst u targetWord used with
      | some used2 => Color.yellow :: processWordGo targetWord rest used2
      | none => Color.defaultColor :: processWordGo targetWord rest used

/-- `processWord( userWord, targetWord )`: the sequence of colours in which
the guess letters are printed. -/
def processWord (userWord targetWord : Word) : List Color :=
  processWordGo targetWord (userWord.zip targetWord)
    (targetLetterUsedInit userWord targetWord)

/-! ### The specification's two-pass algorithm, written from its words -/

/-- Spec, first pass: mark Letter-Tie Table position `i` as claimed for
every position `i` where `guess[i] == target[i]`. -/
def specTieInit (guess target : Word) : List Bool :=
  (List.range target.length).map (fun i => decide (guess.getD i 0 = target.getD i 0))

/-- Spec, second pass, inner scan: the lowest target position `j` with
`guess[i] == target[j]` whose Letter-Tie Table entry is not yet claimed. -/
def specScan (g : Nat) (target : Word) (claimed : List Bool) : Option Nat :=
  (List.range target.length).find?
    (fun j => decide (target.getD j 0 = g) && ! claimed.getD j true)

/-- Spec, second pass over the positions `i` in increasing order: a
position already matching exactly is Correct; otherwise the first
unclaimed elsewhere-match is claimed and the position is Present; every
remaining position is Absent. -/
def specSecondPass (guess target : Word) : List Nat → List Bool → List Classification
  | [], _ => []
  | i :: is, claimed =>
    if guess.getD i 0 = target.getD i 0 then
      Classification.Correct :: specSecondPass guess target is claimed
    else
      match specScan (guess.getD i 0) target claimed with
      | some j => Classification.Present :: specSecondPass guess target is (claimed.set j true)
      | none => Classification.Absent :: specSecondPass guess target is claimed

/-- The specification's two-pass classification of a guess. -/
def specTwoPass (guess target : Word) : List Classification :=
  specSecondPass guess target (List.range guess.length) (specTieInit guess target)

theorem claimFirst_eq_scan (c : Nat) :
    ∀ (ts : Word) (us : List Bool), ts.length = us.length →
      claimFirst c ts us = (specScan c ts us).map (fun j => us.set j true) := by
  intro ts
  induction ts with
  | nil =>
    intro us h
    have : us = [] := List.length_eq_zero.mp h.symm
    subst this
    rfl
  | cons t ts ih =>
    intro us h
    cases us with
    | nil => simp at h
    | cons u us2 =>
      unfold specScan
      rw [List.length_cons, List.range_succ_eq_map]
      by_cases hc : c = t ∧ u = false
      · rw [List.find?_cons_of_pos _ (by simp [hc.1, hc.2])]
        unfold claimFirst
        rw [if_pos hc]
        rfl
      · have hp0 : (decide (t = c) && ! u) = false := by
          cases u with
          | true => simp
          | false =>
            simp only [Bool.not_false, Bool.and_true, decide_eq_false_iff_not]
            exact fun h2 => hc ⟨h2.symm, rfl⟩
        simp only [List.find?_cons, List.getD_cons_zero, hp0, List.find?_map]
        unfold claimFirst
        rw [if_neg hc, ih us2 (by simpa using h)]
        unfold specScan
        have hpred : ((fun j => decide ((t :: ts).getD j 0 = c) &&
            ! (u :: us2).getD j true) ∘ Nat.succ)
            = (fun j => decide (ts.getD j 0 = c) && ! us2.getD j true) := by
          funext j
          simp [Function.comp]
        rw [hpred]
        cases (List.range ts.length).find?
            (fun j => decide (ts.getD j 0 = c) && ! us2.getD j true) with
        | none => rfl
        | some j => rfl

theorem specTieInit_eq (guess target : Word) (hlen : guess.length = target.length) :
    targetLetterUsedInit guess target = specTieInit guess target := by
  induction guess generalizing target with
  | nil =>
    have : target = [] := List.length_eq_zero.mp hlen.symm
    subst this
    rfl
  | cons x g2 ih =>
    cases target with
    | nil => simp at hlen
    | cons y t2 =>
      unfold targetLetterUsedInit specTieInit
      rw [List.zipWith_cons_cons, List.length_cons, List.range_succ_eq_map,
        List.map_cons, List.map_map]
      simp only [List.getD_cons_zero]
      congr 1
      have := ih t2 (by simpa using hlen)
      unfold targetLetterUsedInit specTieInit at this
      rw [this]
      congr 1

theorem processWordGo_eq_specSecondPass (guess target : Word)
    (hlen : guess.length = target.length) :
    ∀ (n k : Nat) (used : List Bool), k + n = guess.length →
      used.length = target.length →
      (processWordGo target ((guess.drop k).zip (target.drop k)) used).map colorMeaning
        = specSecondPass guess target (List.range' k n) used := by
  intro n
  induction n with
  | zero =>
    intro k used hk hu
    rw [List.drop_eq_nil_of_le (by omega)]
    rfl
  | succ n ih =>
    intro k used hk hu
    have hkg : k < guess.length := by omega
    have hkt : k < target.length := by omega
    rw [List.drop_eq_getElem_cons hkg, List.drop_eq_getElem_cons hkt,
      List.zip_cons_cons]
    show (processWordGo target ((guess[k], target[k]) :: _) used).map colorMeaning
      = specSecondPass guess target (k :: List.range' (k + 1) n) used
    unfold processWordGo specSecondPass
    rw [List.getD_eq_getElem guess 0 hkg, List.getD_eq_getElem target 0 hkt]
    by_cases heq : guess[k] = target[k]
    · rw [if_pos heq, if_pos heq, List.map_cons]
      exact congrArg _ (ih (k + 1) used (by omega) hu)
    · rw [if_neg heq, if_neg heq,
        claimFirst_eq_scan guess[k] target used hu.symm]
      cases hscan : specScan guess[k] target used with
      | some j =>
        show (Color.yellow :: processWordGo target _ (used.set j true)).map colorMeaning
          = Classification.Present :: specSecondPass guess target _ (used.set j true)
        rw [List.map_cons]
        exact congrArg _ (ih (k + 1) (used.set j true) (by omega) (by simpa using hu))
      | none =>
        show (Color.defaultColor :: processWordGo target _ used).map colorMeaning
          = Classification.Absent :: specSecondPass guess target _ used
        rw [List.map_cons]
        exact congrArg _ (ih (k + 1) used (by omega) hu)

/-- The colours printed by `processWord`, read as classifications, are
exactly the specification's two-pass classification. -/
theorem processWord_eq_specTwoPass (guess target : Word)
    (hlen : guess.length = target.length) :
    (processWord guess target).map colorMeaning = specTwoPass guess target := by
  unfold processWord specTwoPass
  rw [specTieInit_eq guess target hlen]
  have hl : (specTieInit guess target).length = target.length := by
    unfold specTieInit
    simp
  have := processWordGo_eq_specSecondPass guess target hlen guess.length 0
    (specTieInit guess target) (by omega) hl
  simpa [List.range_eq_range'] using this

/-! ### Counting greens and yellows (the duplicate-letter bookkeeping) -/

theorem countP_split {α : Type} (l : List α) (p q : α → Bool) :
    l.countP p = l.countP (fun a => p a && q a) + l.countP (fun a => p a && ! q a) := by
  induction l with
  | nil => simp
  | cons a l ih =>
    simp only [List.countP_cons]
    cases hp : p a <;> cases hq : q a <;> simp [hp, hq] <;> omega

/-- The number of not-yet-claimed target positions holding the letter `c`. -/
def availCount (c : Nat) (ts : Word) (us : List Bool) : Nat :=
  List.countP (fun p => decide (p.1 = c) && ! p.2) (ts.zip us)

theorem availCount_nil (c : Nat) (us : List Bool) : availCount c [] us = 0 := by
  unfold availCount
  simp

theorem availCount_cons (c t : Nat) (ts : Word) (u : Bool) (us : List Bool) :
    availCount c (t :: ts) (u :: us) =
      availCount c ts us + (if decide (t = c) && ! u then 1 else 0) := by
  unfold availCount
  rw [List.zip_cons_cons, List.countP_cons]

theorem claimFirst_none_avail (g : Nat) :
    ∀ (ts : Word) (us : List Bool), claimFirst g ts us = none →
      ts.length = us.length → availCount g ts us = 0 := by
  intro ts
  induction ts with
  | nil => intro us _ _; exact availCount_nil g us
  | cons t ts ih =>
    intro us hnone hlen
    cases us with
    | nil => simp at hlen
    | cons u us2 =>
      unfold claimFirst at hnone
      by_cases hc : g = t ∧ u = false
      · rw [if_pos hc] at hnone; exact Option.noConfusion hnone
      · rw [if_neg hc] at hnone
        have htail : claimFirst g ts us2 = none := by
          cases hcl : claimFirst g ts us2 with
          | none => rfl
          | some w => rw [hcl] at hnone; exact Option.noConfusion hnone
        rw [availCount_cons, ih us2 htail (by simpa using hlen)]
        have hf : (decide (t = g) && ! u) = false := by
          cases u with
          | true => simp
          | false =>
            simp only [Bool.not_false, Bool.and_true, decide_eq_false_iff_not]
            exact fun h2 => hc ⟨h2.symm, rfl⟩
        rw [hf]
        simp

theorem claimFirst_some_avail (g : Nat) :
    ∀ (ts : Word) (us us2 : List Bool), claimFirst g ts us = some us2 →
      ts.length = us.length →
      us2.length = us.length ∧ availCount g ts us = availCount g ts us2 + 1 ∧
        ∀ d, d ≠ g → availCount d ts us2 = availCount d ts us := by
  intro ts
  induction ts with
  | nil =>
    intro us us2 hsome _
    exact Option.noConfusion hsome
  | cons t ts ih =>
    intro us us2 hsome hlen
    cases us with
    | nil => simp at hlen
    | cons u usr =>
      unfold claimFirst at hsome
      by_cases hc : g = t ∧ u = false
      · rw [if_pos hc] at hsome
        obtain rfl := Option.some.inj hsome
        obtain ⟨rfl, rfl⟩ := hc
        refine ⟨by simp, ?_, ?_⟩
        · rw [availCount_cons, availCount_cons]
          simp
        · intro d hd
          rw [availCount_cons, availCount_cons]
          have hdec : (decide (g = d)) = false :=
            decide_eq_false_iff_not.mpr fun h2 => hd h2.symm
          simp [hdec]
      · rw [if_neg hc] at hsome
        cases hcl : claimFirst g ts usr with
        | none => rw [hcl] at hsome; exact Option.noConfusion hsome
        | some w =>
          rw [hcl] at hsome
          obtain rfl := Option.some.inj hsome
          obtain ⟨hw1, hw2, hw3⟩ := ih usr w hcl (by simpa using hlen)
          refine ⟨by simpa using hw1, ?_, ?_⟩
          · rw [availCount_cons, availCount_cons, hw2]
            omega
          · intro d hd
            rw [availCount_cons, availCount_cons, hw3 d hd]

theorem ite_true_one : (if (true = true) then (1 : Nat) else 0) = 1 := rfl

theorem ite_false_zero : (if (false = true) then (1 : Nat) else 0) = 0 := rfl

theorem yellow_count (target : Word) (c : Nat) :
    ∀ (pairs : List (Nat × Nat)) (used : List Bool), used.length = target.length →
      List.countP (fun pc => decide (pc.1.1 = c) && decide (pc.2 = Color.yellow))
        (pairs.zip (processWordGo target pairs used))
      = min (List.countP (fun p => decide (p.1 = c) && ! decide (p.1 = p.2)) pairs)
          (availCount c target used) := by
  intro pairs
  induction pairs with
  | nil => intro used _; simp [processWordGo]
  | cons p rest ih =>
    intro used hu
    obtain ⟨u, t⟩ := p
    unfold processWordGo
    by_cases heq : u = t
    · rw [if_pos heq, List.zip_cons_cons, List.countP_cons, List.countP_cons]
      have h1 : (decide ((u, t).1 = c) && decide (Color.green = Color.yellow)) = false := by
        simp
      have h2 : (decide ((u, t).1 = c) && ! decide ((u, t).1 = (u, t).2)) = false := by
        simp [heq]
      rw [h1, h2, ih used hu]
      simp
    · rw [if_neg heq]
      cases hcl : claimFirst u target used with
      | some used2 =>
        obtain ⟨hl1, hl2, hl3⟩ := claimFirst_some_avail u target used used2 hcl hu.symm
        rw [List.zip_cons_cons, List.countP_cons, List.countP_cons,
          ih used2 (by rw [hl1]; exact hu)]
        by_cases hcu : u = c
        · subst hcu
          have hh1 : (decide ((u, t).1 = u) && decide (Color.yellow = Color.yellow)) = true := by
            simp
          have hh2 : (decide ((u, t).1 = u) && ! decide ((u, t).1 = (u, t).2)) = true := by
            simp [heq]
          rw [hh1, hh2, hl2]
          simp only [ite_true_one, ite_false_zero, if_true, if_false]
          omega
        · have hh1 : (decide ((u, t).1 = c) && decide (Color.yellow = Color.yellow)) = false := by
            simp [hcu]
          have hh2 : (decide ((u, t).1 = c) && ! decide ((u, t).1 = (u, t).2)) = false := by
            simp [hcu]
          rw [hh1, hh2, hl3 c (fun h2 => hcu h2.symm)]
          simp only [ite_true_one, ite_false_zero, if_true, if_false]
          omega
      | none =>
        have hav : availCount u target used = 0 :=
          claimFirst_none_avail u target used hcl hu.symm
        rw [List.zip_cons_cons, List.countP_cons, List.countP_cons, ih used hu]
        have hh1 : (decide ((u, t).1 = c) && decide (Color.defaultColor = Color.yellow)) = false := by
          simp
        rw [hh1]
        by_cases hcu : u = c
        · subst hcu
          have hh2 : (decide ((u, t).1 = u) && ! decide ((u, t).1 = (u, t).2)) = true := by
            simp [heq]
          rw [hh2, hav]
          simp only [ite_true_one, ite_false_zero, if_true, if_false]
          omega
        · have hh2 : (decide ((u, t).1 = c) && ! decide ((u, t).1 = (u, t).2)) = false := by
            simp [hcu]
          rw [hh2]
          simp only [ite_true_one, ite_false_zero, if_true, if_false]
          omega

theorem green_count (target : Word) (c : Nat) :
    ∀ (pairs : List (Nat × Nat)) (used : List Bool),
      List.countP (fun pc => decide (pc.1.1 = c) && decide (pc.2 = Color.green))
        (pairs.zip (processWordGo target pairs used))
      = List.countP (fun p => decide (p.1 = c) && decide (p.1 = p.2)) pairs := by
  intro pairs
  induction pairs with
  | nil => intro used; simp [processWordGo]
  | cons p rest ih =>
    intro used
    obtain ⟨u, t⟩ := p
    unfold processWordGo
    by_cases heq : u = t
    · rw [if_pos heq, List.zip_cons_cons, List.countP_cons, List.countP_cons, ih used]
      have : decide ((u, t).1 = (u, t).2) = true := by simp [heq]
      simp [this]
    · rw [if_neg heq]
      cases hcl : claimFirst u target used with
      | some used2 =>
        rw [List.zip_cons_cons, List.countP_cons, List.countP_cons, ih used2]
        have h2 : decide ((u, t).1 = (u, t).2) = false := by simp [heq]
        simp [h2]
      | none =>
        rw [List.zip_cons_cons, List.countP_cons, List.countP_cons, ih used]
        have h2 : decide ((u, t).1 = (u, t).2) = false := by simp [heq]
        simp [h2]

theorem countP_zip_fst {α β γ : Type} (f : α → γ → Bool) :
    ∀ (l1 : List α) (l2 : List β) (l3 : List γ), l1.length = l2.length →
      List.countP (fun p => f p.1 p.2) (l1.zip l3)
        = List.countP (fun p => f p.1.1 p.2) ((l1.zip l2).zip l3) := by
  intro l1
  induction l1 with
  | nil => intro l2 l3 _; simp
  | cons a l1 ih =>
    intro l2 l3 hlen
    cases l2 with
    | nil => simp at hlen
    | cons b l2 =>
      cases l3 with
      | nil => simp
      | cons g l3 =>
        rw [List.zip_cons_cons, List.zip_cons_cons, List.zip_cons_cons,
          List.countP_cons, List.countP_cons, ih l2 l3 (by simpa using hlen)]

theorem availCount_init (c : Nat) (guess target : Word) :
    availCount c target (targetLetterUsedInit guess target)
      = List.countP (fun p => decide (p.2 = c) && ! decide (p.1 = p.2)) (guess.zip target) := by
  induction guess generalizing target with
  | nil => simp [availCount, targetLetterUsedInit]
  | cons g gs ih =>
    cases target with
    | nil => simp [availCount, targetLetterUsedInit]
    | cons t ts =>
      unfold targetLetterUsedInit at ih ⊢
      rw [List.zipWith_cons_cons]
      rw [availCount_cons, List.zip_cons_cons, List.countP_cons, ih ts]

theorem countP_zip_count_fst (c : Nat) :
    ∀ (guess target : Word), guess.length = target.length →
      List.countP (fun p => decide (p.1 = c)) (guess.zip target) = guess.count c := by
  intro guess
  induction guess with
  | nil => intro target _; simp
  | cons g gs ih =>
    intro target hlen
    cases target with
    | nil => simp at hlen
    | cons t ts =>
      rw [List.zip_cons_cons, List.countP_cons, ih ts (by simpa using hlen),
        List.count_cons]
      by_cases hg : g = c
      · subst hg; simp
      · have hg2 : ¬ c = g := fun h => hg h.symm
        simp [hg, hg2]

theorem countP_zip_count_snd (c : Nat) :
    ∀ (guess target : Word), guess.length = target.length →
      List.countP (fun p => decide (p.2 = c)) (guess.zip target) = target.count c := by
  intro guess
  induction guess with
  | nil =>
    intro target hlen
    have : target = [] := List.length_eq_zero.mp hlen.symm
    subst this
    simp
  | cons g gs ih =>
    intro target hlen
    cases target with
    | nil => simp at hlen
    | cons t ts =>
      rw [List.zip_cons_cons, List.countP_cons, ih ts (by simpa using hlen),
        List.count_cons]
      by_cases ht : t = c
      · subst ht; simp
      · have ht2 : ¬ c = t := fun h => ht h.symm
        simp [ht, ht2]

/-- Per-letter conservation: the guess positions holding `c` that are
printed green or yellow number exactly
`min (count of c in the guess) (count of c in the target)`. -/
theorem classified_count (guess target : Word) (hlen : guess.length = target.length)
    (c : Nat) :
    List.countP (fun pc => decide (pc.1 = c) && ! decide (pc.2 = Color.defaultColor))
      (guess.zip (processWord guess target))
    = min (guess.count c) (target.count c) := by
  unfold processWord
  rw [countP_zip_fst (fun a col => decide (a = c) && ! decide (col = Color.defaultColor))
    guess target _ hlen]
  have husedlen : (targetLetterUsedInit guess target).length = target.length := by
    unfold targetLetterUsedInit
    simp [hlen]
  rw [countP_split _ _ (fun pc => decide (pc.2 = Color.green))]
  have e1 : (fun pc : (Nat × Nat) × Color =>
      (decide (pc.1.1 = c) && ! decide (pc.2 = Color.defaultColor))
        && decide (pc.2 = Color.green))
      = (fun pc : (Nat × Nat) × Color =>
          decide (pc.1.1 = c) && decide (pc.2 = Color.green)) := by
    funext pc
    obtain ⟨p, col⟩ := pc
    cases col <;> simp
  have e2 : (fun pc : (Nat × Nat) × Color =>
      (decide (pc.1.1 = c) && ! decide (pc.2 = Color.defaultColor))
        && ! decide (pc.2 = Color.green))
      = (fun pc : (Nat × Nat) × Color =>
          decide (pc.1.1 = c) && decide (pc.2 = Color.yellow)) := by
    funext pc
    obtain ⟨p, col⟩ := pc
    cases col <;> simp
  rw [e1, e2, green_count target c (guess.zip target) (targetLetterUsedInit guess target),
    yellow_count target c (guess.zip target) (targetLetterUsedInit guess target) husedlen,
    availCount_init c guess target]
  have hsplit1 := countP_split (guess.zip target)
    (fun p => decide (p.1 = c)) (fun p => decide (p.1 = p.2))
  have hsplit2 := countP_split (guess.zip target)
    (fun p => decide (p.2 = c)) (fun p => decide (p.1 = p.2))
  rw [countP_zip_count_fst c guess target hlen] at hsplit1
  rw [countP_zip_count_snd c guess target hlen] at hsplit2
  have e3 : (fun p : Nat × Nat => decide (p.2 = c) && decide (p.1 = p.2))
      = (fun p : Nat × Nat => decide (p.1 = c) && decide (p.1 = p.2)) := by
    funext p
    by_cases hp : p.1 = p.2
    · simp [hp]
    · simp [hp]
  rw [e3] at hsplit2
  omega

/-! ## `readLine` (`src/io.c`) and `readWords` (`src/lexicon.c`)

A word source is a byte stream, modelled as a `List Nat` of byte values
(0..255); reading past its end makes `getc` return `EOF` (-1).  The C code
stores `getc`'s `int` result in a plain `char` (signed on the reference
platform), so a byte is seen through `charOf`, and byte `0xFF` becomes
`-1`, indistinguishable from `EOF`. -/

/-- The value the `char ch = getc(fp)` assignment leaves in `ch` for an
actual byte: bytes 128..255 wrap to negative values. -/
def charOf (b : Nat) : Int := if b < 128 then (b : Int) else (b : Int) - 256

/-- `LOWERCASE_A` of `io.h`. -/
def LOWERCASE_A : Int := 97

/-- `LOWERCASE_Z` of `io.h`. -/
def LOWERCASE_Z : Int := 122

/-- The letter loop of `readLine`: read `n` characters, each of which must
be a lowercase letter (`ch < 'a' || ch > 'z'` is fatal — this also fires
when `getc` returns `EOF` at the end of the stream).  Returns the word and
the unread remainder of the stream. -/
def readLineChars : Nat → List Nat → Option (Word × List Nat)
  | 0, input => some ([], input)
  | _ + 1, [] => none
  | k + 1, b :: rest =>
    if charOf b < LOWERCASE_A ∨ LOWERCASE_Z < charOf b then none
    else (readLineChars k rest).map (fun r => (b :: r.1, r.2))

/-- `readLine( fp, str, n )`: after the `n` letters, a character equal to
`EOF` ends the input (`false`); otherwise it must be a line feed, and one
more character is peeked to detect a trailing newline before `EOF`
(`ungetc` puts it back otherwise).  `none` is the fatal
`InvalidWordFormat` exit. -/
def readLine (input : List Nat) (n : Nat) : Option (Word × List Nat × Bool) :=
  match readLineChars n input with
  | none => none
  | some (str, rest) =>
    match rest with
    | [] => some (str, [], false)
    | b :: rest2 =>
      if charOf b = -1 then some (str, rest2, false)
      else if ¬ (charOf b = 10) then none
      else
        match rest2 with
        | [] => some (str, [], false)
        | b2 :: rest3 =>
          if charOf b2 = -1 then some (str, rest3, false)
          else some (str, b2 :: rest3, true)

/-- `INITIAL_CAPACITY` of `src/lexicon.c`. -/
def INITIAL_CAPACITY : Nat := 10

/-- The two fatal failures of the load path, named as in the
specification (the program prints the same message for both, but exits at
two distinct places). -/
inductive LoadError where
  | InvalidWordFormat
  | CapacityExceeded
deriving DecidableEq

theorem readLineChars_rest_le :
    ∀ (k : Nat) (input : List Nat) (w : Word) (r : List Nat),
      readLineChars k input = some (w, r) → r.length ≤ input.length := by
  intro k
  induction k with
  | zero =>
    intro input w r h
    obtain ⟨_, rfl⟩ := Prod.mk.injEq .. ▸ Option.some.inj h
    exact le_rfl
  | succ k ih =>
    intro input w r h
    cases input with
    | nil => exact Option.noConfusion h
    | cons b rest =>
      unfold readLineChars at h
      by_cases hc : charOf b < LOWERCASE_A ∨ LOWERCASE_Z < charOf b
      · rw [if_pos hc] at h; exact Option.noConfusion h
      · rw [if_neg hc] at h
        cases hrec : readLineChars k rest with
        | none => rw [hrec] at h; exact Option.noConfusion h
        | some pr =>
          rw [hrec] at h
          obtain ⟨w2, r2⟩ := pr
          obtain ⟨_, rfl⟩ := Prod.mk.injEq .. ▸ Option.some.inj h
          exact Nat.le_succ_of_le (ih rest w2 r2 hrec)

theorem readLine_true_shorter {input : List Nat} {n : Nat} {w : Word} {rest : List Nat}
    (h : readLine input n = some (w, rest, true)) : rest.length < input.length := by
  unfold readLine at h
  split at h
  · exact Option.noConfusion h
  · rename_i str mid hc
    split at h
    · simp at h
    · rename_i b rest2
      split at h
      · simp at h
      · split at h
        · exact Option.noConfusion h
        · split at h
          · simp at h
          · rename_i b2 rest3
            split at h
            · simp at h
            · have hmid := readLineChars_rest_le n input str (b :: b2 :: rest3) hc
              simp only [Option.some.injEq, Prod.mk.injEq] at h
              obtain ⟨_, h2, _⟩ := h
              subst h2
              simp only [List.length_cons] at hmid ⊢
              omega

/-- The reading loop of `readWords`: read a word (fatal `InvalidWordFormat`
inside `readLine` on malformed input), grow the capacity when full
(doubling, jumping to `WORD_LIMIT` once above `WORD_LIMIT / 2`), exit
fatally when the list already holds `WORD_LIMIT` words, append the word,
and continue while `readLine` reported more input. -/
def readWordsLoop (input : List Nat) (wordList : List Word) (capacity : Nat) :
    Except LoadError (List Word × Nat) :=
  match hread : readLine input WORD_LEN with
  | none => Except.error LoadError.InvalidWordFormat
  | some (str, rest, getAnotherLine) =>
    let capacity2 :=
      if wordList.length = capacity then
        (if capacity > WORD_LIMIT / 2 then WORD_LIMIT else capacity * 2)
      else capacity
    if wordList.length = WORD_LIMIT then Except.error LoadError.CapacityExceeded
    else if getAnotherLine then readWordsLoop rest (wordList ++ [str]) capacity2
    else Except.ok (wordList ++ [str], capacity2)
termination_by input.length
decreasing_by
  have hg : getAnotherLine = true := by assumption
  exact @readLine_true_shorter input WORD_LEN str rest (hg ▸ hread)

/-- `readWords( filename )`: load the whole word source, starting from an
empty list with capacity `INITIAL_CAPACITY`; the result is the loaded word
list together with the final capacity of its backing storage. -/
def readWords (input : List Nat) : Except LoadError (List Word × Nat) :=
  readWordsLoop input [] INITIAL_CAPACITY

/-- The startup phase of `main` (`src/wordle.c`): `readWords`, then the
target word is picked by `chooseWord`, and only after that is the lexicon
sorted and duplicate-checked by `sort()`. -/
def mainStartup (input : List Nat) (seed : Nat) :
    Except LoadError (Word × Option (List Word)) :=
  match readWords input with
  | Except.error e => Except.error e
  | Except.ok (wordList, _) => Except.ok (chooseWord wordList seed, sort wordList)

/-- A word of exactly `WORD_LEN` lowercase ASCII letters. -/
def lowercaseWord (w : Word) : Prop :=
  w.length = WORD_LEN ∧ ∀ b ∈ w, 97 ≤ b ∧ b ≤ 122

instance (w : Word) : Decidable (lowercaseWord w) := by
  unfold lowercaseWord; infer_instance

/-- One step structure of the word-source format: `wellFormedF fuel s` is
true when `s` consists of one or more records, each exactly `WORD_LEN`
lowercase letters followed by a line feed, the final record allowed to
omit the trailing line feed (the fuel, at least the number of records,
only drives the recursion). -/
def wellFormedF : Nat → List Nat → Bool
  | 0, _ => false
  | fuel + 1, s =>
    if (s.take WORD_LEN).length = WORD_LEN
        ∧ ∀ b ∈ s.take WORD_LEN, 97 ≤ b ∧ b ≤ 122 then
      match s.drop WORD_LEN with
      | [] => true
      | [10] => true
      | 10 :: rest => wellFormedF fuel rest
      | _ => false
    else false

/-- The word-source format stated by the specification (a stream of
`s.length` bytes has at most `s.length` records, so that much fuel is
exact). -/
def wellFormedSource (s : List Nat) : Bool := wellFormedF s.length s

/-- The byte stream holding the given words, each followed by a line feed
except possibly the last (`trailing` asks for the trailing line feed). -/
def encodeSource : List Word → Bool → List Nat
  | [], _ => []
  | [w], trailing => w ++ (if trailing then [10] else [])
  | w :: ws, trailing => w ++ 10 :: encodeSource ws trailing

/-- The capacity after one pass through the growth check of `readWords`,
for a list currently holding `len` words. -/
def capacityAfter (len cap : Nat) : Nat :=
  if len = cap then (if cap > WORD_LIMIT / 2 then WORD_LIMIT else cap * 2) else cap

/-- The capacity after loading `m` further words into a list of `len`
words backed by storage of capacity `cap`. -/
def finalCapacity : Nat → Nat → Nat → Nat
  | _, 0, cap => cap
  | len, m + 1, cap => finalCapacity (len + 1) m (capacityAfter len cap)

theorem readLineChars_encode :
    ∀ (k : Nat) (w : Word), w.length = k → (∀ b ∈ w, 97 ≤ b ∧ b ≤ 122) →
      ∀ tail, readLineChars k (w ++ tail) = some (w, tail) := by
  intro k
  induction k with
  | zero =>
    intro w hw _ tail
    have : w = [] := List.length_eq_zero.mp hw
    subst this
    rfl
  | succ k ih =>
    intro w hw hlow tail
    cases w with
    | nil => simp at hw
    | cons b w2 =>
      have hb := hlow b (by simp)
      have hchar : ¬ (charOf b < LOWERCASE_A ∨ LOWERCASE_Z < charOf b) := by
        unfold charOf LOWERCASE_A LOWERCASE_Z
        rw [if_pos (by omega : b < 128)]
        omega
      show readLineChars (k + 1) (b :: (w2 ++ tail)) = _
      unfold readLineChars
      rw [if_neg hchar,
        ih w2 (by simpa using hw) (fun x hx => hlow x (by simp [hx])) tail]
      rfl

theorem readLine_encode_last (w : Word) (hw : lowercaseWord w) (tr : Bool) :
    readLine (w ++ (if tr then [10] else [])) WORD_LEN = some (w, [], false) := by
  unfold readLine
  rw [readLineChars_encode WORD_LEN w hw.1 hw.2 _]
  cases tr with
  | false => rfl
  | true =>
    have h10 : charOf 10 = 10 := by norm_num [charOf]
    simp [h10]

theorem encodeSource_head (ws : List Word) (hne : ws ≠ []) (tr : Bool)
    (hws : ∀ x ∈ ws, lowercaseWord x) :
    ∃ b rest, encodeSource ws tr = b :: rest ∧ 97 ≤ b ∧ b ≤ 122 := by
  cases ws with
  | nil => exact absurd rfl hne
  | cons w ws2 =>
    have hw := hws w (by simp)
    obtain ⟨hlen, hlow⟩ := hw
    cases w with
    | nil => simp [WORD_LEN] at hlen
    | cons b w2 =>
      have hb := hlow b (by simp)
      cases ws2 with
      | nil => exact ⟨b, w2 ++ (if tr then [10] else []), by simp [encodeSource], hb.1, hb.2⟩
      | cons w3 ws3 =>
        exact ⟨b, w2 ++ 10 :: encodeSource (w3 :: ws3) tr, by simp [encodeSource], hb.1, hb.2⟩

theorem readLine_encode_cons (w : Word) (hw : lowercaseWord w) (ws : List Word)
    (hne : ws ≠ []) (hws : ∀ x ∈ ws, lowercaseWord x) (tr : Bool) :
    readLine (encodeSource (w :: ws) tr) WORD_LEN = some (w, encodeSource ws tr, true) := by
  have hstep : encodeSource (w :: ws) tr = w ++ 10 :: encodeSource ws tr := by
    cases ws with
    | nil => exact absurd rfl hne
    | cons a l => rfl
  rw [hstep]
  unfold readLine
  rw [readLineChars_encode WORD_LEN w hw.1 hw.2 _]
  obtain ⟨b, rest, hb, hb1, hb2⟩ := encodeSource_head ws hne tr hws
  rw [hb]
  have h10 : charOf 10 = 10 := by norm_num [charOf]
  have hbch : ¬ charOf b = -1 := by
    unfold charOf
    rw [if_pos (by omega : b < 128)]
    omega
  simp [h10, hbch]

theorem readWordsLoop_step {input : List Nat} {str : Word} {rest : List Nat} {more : Bool}
    {acc : List Word} {cap : Nat}
    (h : readLine input WORD_LEN = some (str, rest, more)) :
    readWordsLoop input acc cap =
      if acc.length = WORD_LIMIT then Except.error LoadError.CapacityExceeded
      else if more then readWordsLoop rest (acc ++ [str]) (capacityAfter acc.length cap)
      else Except.ok (acc ++ [str], capacityAfter acc.length cap) := by
  rw [readWordsLoop]
  split
  · rename_i hnone
    rw [h] at hnone
    exact Option.noConfusion hnone
  · rename_i str2 rest2 more2 heq
    rw [h] at heq
    obtain ⟨rfl, rfl, rfl⟩ : str2 = str ∧ rest2 = rest ∧ more2 = more := by
      have := Option.some.inj heq
      simp only [Prod.mk.injEq] at this
      tauto
    rfl

theorem readWordsLoop_encode :
    ∀ (ws : List Word) (tr : Bool) (acc : List Word) (cap : Nat),
      ws ≠ [] → (∀ w ∈ ws, lowercaseWord w) → acc.length ≤ WORD_LIMIT →
      readWordsLoop (encodeSource ws tr) acc cap =
        if WORD_LIMIT < acc.length + ws.length then Except.error LoadError.CapacityExceeded
        else Except.ok (acc ++ ws, finalCapacity acc.length ws.length cap) := by
  intro ws
  induction ws with
  | nil => intro tr acc cap hne; exact absurd rfl hne
  | cons w ws ih =>
    intro tr acc cap hne hlow hacc
    by_cases hws : ws = []
    · subst hws
      have hw := hlow w (by simp)
      have henc : encodeSource [w] tr = w ++ (if tr then [10] else []) := rfl
      rw [henc, readWordsLoop_step (readLine_encode_last w hw tr)]
      by_cases hfull : acc.length = WORD_LIMIT
      · rw [if_pos hfull,
          if_pos (show WORD_LIMIT < acc.length + [w].length from by simp; omega)]
      · rw [if_neg hfull,
          if_neg (show ¬ WORD_LIMIT < acc.length + [w].length from by simp; omega)]
        rfl
    · rw [readWordsLoop_step
        (readLine_encode_cons w (hlow w (by simp)) ws hws
          (fun x hx => hlow x (by simp [hx])) tr)]
      by_cases hfull : acc.length = WORD_LIMIT
      · rw [if_pos hfull,
          if_pos (show WORD_LIMIT < acc.length + (w :: ws).length from by simp; omega)]
      · rw [if_neg hfull, if_pos (show (true : Bool) = true from rfl),
          ih tr (acc ++ [w]) (capacityAfter acc.length cap) hws
            (fun x hx => hlow x (by simp [hx])) (by simp; omega)]
        have h2 : finalCapacity acc.length ((w :: ws).length) cap
            = finalCapacity ((acc ++ [w]).length) ws.length (capacityAfter acc.length cap) := by
          have e1 : (w :: ws).length = ws.length + 1 := by simp
          have e2 : (acc ++ [w]).length = acc.length + 1 := by simp
          rw [e1, e2]
          rfl
        by_cases hover : WORD_LIMIT < acc.length + (w :: ws).length
        · rw [if_pos (show WORD_LIMIT < (acc ++ [w]).length + ws.length from by
            simp at hover ⊢; omega), if_pos hover]
        · rw [if_neg (show ¬ WORD_LIMIT < (acc ++ [w]).length + ws.length from by
            simp at hover ⊢; omega), if_neg hover]
          rw [List.append_assoc, ← h2]
          rfl

theorem readWordsLoop_ok_length (input : List Nat) (acc : List Word) (cap : Nat) :
    ∀ (res : List Word) (c2 : Nat),
      readWordsLoop input acc cap = Except.ok (res, c2) →
      acc.length < res.length ∧ (acc.length ≤ WORD_LIMIT → res.length ≤ WORD_LIMIT) := by
  induction input, acc, cap using readWordsLoop.induct with
  | case1 input acc cap hread =>
    intro res c2 h
    rw [readWordsLoop] at h
    split at h
    · exact Except.noConfusion h
    · rename_i str2 rest2 more2 heq
      rw [hread] at heq
      exact Option.noConfusion heq
  | case2 input acc cap str rest gal hread hfull =>
    intro res c2 h
    rw [readWordsLoop_step hread, if_pos hfull] at h
    exact Except.noConfusion h
  | case3 input acc cap str rest cap2 hnotfull hread ih =>
    intro res c2 h
    rw [readWordsLoop_step hread, if_neg hnotfull,
      if_pos (show (true : Bool) = true from rfl)] at h
    obtain ⟨h1, h2⟩ := ih res c2 h
    refine ⟨by simp at h1; omega, fun hle => h2 (by simp; omega)⟩
  | case4 input acc cap str rest gal hread hnotfull hnotmore =>
    intro res c2 h
    rw [readWordsLoop_step hread, if_neg hnotfull, if_neg hnotmore] at h
    obtain ⟨hres, _⟩ := Prod.mk.injEq .. ▸ Except.ok.inj h
    subst hres
    constructor
    · simp
    · intro hle
      simp
      omega

/-! ## Arithmetic of `chooseWord` -/

theorem wrap64_eq_self {x : Int} (h0 : 0 ≤ x) (h1 : x < 2 ^ 63) : wrap64 x = x := by
  unfold wrap64
  have e64 : (2 : Int) ^ 64 = 18446744073709551616 := by norm_num
  have e63 : (2 : Int) ^ 63 = 9223372036854775808 := by norm_num
  rw [e64, e63]
  rw [e63] at h1
  omega

theorem tmod_coe (a b : Nat) : Int.tmod (a : Int) (b : Int) = ((a % b : Nat) : Int) := by
  rw [Int.tmod_eq_emod (by positivity) (by positivity)]
  push_cast
  rfl

/-- Within the program's bounds the signed 64-bit evaluation of the index
formula never wraps, so it agrees with the exact formula. -/
theorem chooseWordIndex64_eq (seed n : Nat) (h1 : 1 ≤ n) (h2 : n ≤ WORD_LIMIT)
    (h3 : seed < 2 ^ 63) :
    chooseWordIndex64 (seed : Int) (n : Int) = ((chooseWordIndex seed n : Nat) : Int) := by
  unfold chooseWordIndex64 chooseWordIndex
  rw [tmod_coe seed n]
  have hcast : ((seed % n : Nat) : Int) * ((MULTIPLIER : Nat) : Int)
      = (((seed % n) * MULTIPLIER : Nat) : Int) := by
    push_cast
    ring
  rw [hcast]
  have hlt : (seed % n) * MULTIPLIER < 2 ^ 63 := by
    have hmod : seed % n < n := Nat.mod_lt _ (by omega)
    have hb : seed % n ≤ 99999 := by
      unfold WORD_LIMIT at h2
      omega
    calc (seed % n) * MULTIPLIER ≤ 99999 * MULTIPLIER := Nat.mul_le_mul_right _ hb
      _ < 2 ^ 63 := by norm_num [MULTIPLIER]
  rw [wrap64_eq_self (by positivity) (by exact_mod_cast hlt)]
  rw [tmod_coe]

theorem chooseWordIndex_lt (seed n : Nat) (h : 1 ≤ n) : chooseWordIndex seed n < n := by
  unfold chooseWordIndex
  exact Nat.mod_lt _ (by omega)

theorem mergeSortF_nil (fuel : Nat) : mergeSortF fuel ([] : List Word) = none := by
  induction fuel with
  | zero => rfl
  | succ fuel ih => simp [mergeSortF, copyArray, ih]

/-! ## The capacity chain of `readWords` -/

theorem finalCapacity_spec : ∀ (m len cap : Nat), len ≤ cap →
    (∃ k, cap = min (INITIAL_CAPACITY * 2 ^ k) WORD_LIMIT) → len + m ≤ WORD_LIMIT →
    len + m ≤ finalCapacity len m cap ∧
      ∃ k, finalCapacity len m cap = min (INITIAL_CAPACITY * 2 ^ k) WORD_LIMIT := by
  intro m
  induction m with
  | zero =>
    intro len cap h1 h2 h3
    rw [show finalCapacity len 0 cap = cap from rfl]
    exact ⟨by omega, h2⟩
  | succ m ih =>
    intro len cap h1 h2 h3
    have hcap10 : 10 ≤ cap := by
      obtain ⟨k, hk⟩ := h2
      have hp : 1 ≤ 2 ^ k := Nat.one_le_two_pow
      rw [hk]
      unfold INITIAL_CAPACITY WORD_LIMIT
      omega
    have hstep : len + 1 ≤ capacityAfter len cap ∧
        ∃ k, capacityAfter len cap = min (INITIAL_CAPACITY * 2 ^ k) WORD_LIMIT := by
      unfold capacityAfter
      by_cases hl : len = cap
      · rw [if_pos hl]
        by_cases hgt : cap > WORD_LIMIT / 2
        · rw [if_pos hgt]
          refine ⟨by unfold WORD_LIMIT at h3 ⊢; omega, 14, ?_⟩
          unfold INITIAL_CAPACITY WORD_LIMIT
          norm_num
        · rw [if_neg hgt]
          obtain ⟨k, hk⟩ := h2
          refine ⟨by omega, k + 1, ?_⟩
          rw [pow_succ]
          unfold INITIAL_CAPACITY WORD_LIMIT at hk hgt ⊢
          omega
      · rw [if_neg hl]
        exact ⟨by omega, h2⟩
    obtain ⟨hs1, hs2⟩ := hstep
    have hrec := ih (len + 1) (capacityAfter len cap) hs1 hs2 (by omega)
    rw [show finalCapacity len (m + 1) cap
      = finalCapacity (len + 1) m (capacityAfter len cap) from rfl]
    exact ⟨by omega, hrec.2⟩

/-! ## Concrete evaluations -/

theorem mergeSortF_pair (fuel : Nat) (x y : Word) :
    mergeSortF (fuel + 2) [x, y] = some (merge [x] [y]) := by
  show mergeSortF (fuel + 1 + 1) [x, y] = _
  simp [mergeSortF, copyArray]

theorem mergeSortF_triple (x y z : Word) :
    mergeSortF 3 [x, y, z] = some (merge [x] (merge [y] [z])) := by
  simp [mergeSortF, copyArray]

theorem readWords_encode (ws : List Word) (tr : Bool) (hne : ws ≠ [])
    (hlow : ∀ w ∈ ws, lowercaseWord w) (hlim : ws.length ≤ WORD_LIMIT) :
    readWords (encodeSource ws tr)
      = Except.ok (ws, finalCapacity 0 ws.length INITIAL_CAPACITY) := by
  unfold readWords
  rw [readWordsLoop_encode ws tr [] INITIAL_CAPACITY hne hlow (by simp)]
  rw [if_neg (show ¬ WORD_LIMIT < ([] : List Word).length + ws.length from by simp; omega)]
  rfl

theorem mainStartup_encode (ws : List Word) (tr : Bool) (seed : Nat) (hne : ws ≠ [])
    (hlow : ∀ w ∈ ws, lowercaseWord w) (hlim : ws.length ≤ WORD_LIMIT) :
    mainStartup (encodeSource ws tr) seed = Except.ok (chooseWord ws seed, sort ws) := by
  unfold mainStartup
  rw [readWords_encode ws tr hne hlow hlim]

theorem mergeSort_bac :
    mergeSort [[98,97,107,101,114],[97,112,112,108,101],[99,97,110,100,121]]
      = [[97,112,112,108,101],[98,97,107,101,114],[99,97,110,100,121]] := by
  have m1 : merge [[97,112,112,108,101]] [[99,97,110,100,121]]
      = [[97,112,112,108,101],[99,97,110,100,121]] := by
    rw [merge_cons, if_pos (by decide), merge_nil_left]
  have m2 : merge [[98,97,107,101,114]] [[97,112,112,108,101],[99,97,110,100,121]]
      = [[97,112,112,108,101],[98,97,107,101,114],[99,97,110,100,121]] := by
    rw [merge_cons, if_neg (by decide), merge_cons, if_pos (by decide), merge_nil_left]
  unfold mergeSort
  rw [show ([[98,97,107,101,114],[97,112,112,108,101],[99,97,110,100,121]] :
    List Word).length = 3 from rfl]
  rw [mergeSortF_triple, m1, m2]
  rfl

theorem mergeSort_abc :
    mergeSort [[97,112,112,108,101],[98,97,107,101,114],[99,97,110,100,121]]
      = [[97,112,112,108,101],[98,97,107,101,114],[99,97,110,100,121]] := by
  have m1 : merge [[98,97,107,101,114]] [[99,97,110,100,121]]
      = [[98,97,107,101,114],[99,97,110,100,121]] := by
    rw [merge_cons, if_pos (by decide), merge_nil_left]
  have m2 : merge [[97,112,112,108,101]] [[98,97,107,101,114],[99,97,110,100,121]]
      = [[97,112,112,108,101],[98,97,107,101,114],[99,97,110,100,121]] := by
    rw [merge_cons, if_pos (by decide), merge_nil_left]
  unfold mergeSort
  rw [show ([[97,112,112,108,101],[98,97,107,101,114],[99,97,110,100,121]] :
    List Word).length = 3 from rfl]
  rw [mergeSortF_triple, m1, m2]
  rfl

theorem sort_bac :
    sort [[98,97,107,101,114],[97,112,112,108,101],[99,97,110,100,121]]
      = some [[97,112,112,108,101],[98,97,107,101,114],[99,97,110,100,121]] := by
  unfold sort
  rw [mergeSort_bac, if_neg (by decide)]

theorem sort_abc :
    sort [[97,112,112,108,101],[98,97,107,101,114],[99,97,110,100,121]]
      = some [[97,112,112,108,101],[98,97,107,101,114],[99,97,110,100,121]] := by
  unfold sort
  rw [mergeSort_abc, if_neg (by decide)]

/-! ## The claims -/

/-- C1: for every guess and target of length `WORD_LEN` over lowercase
letters, the per-letter classification produced by `processWord` (green =
Correct, yellow = Present, default = Absent), in guess order, equals the
specification's two-pass algorithm: exact matches claim their tie-table
position and are Correct before any elsewhere-matching; every other
position is Present iff the left-to-right scan finds a lowest unclaimed
matching target position (which is then claimed); the rest are Absent. -/
theorem claim_C1 (guess target : Word)
    (hg : guess.length = WORD_LEN) (ht : target.length = WORD_LEN)
    (hgl : ∀ b ∈ guess, 97 ≤ b ∧ b ≤ 122) (htl : ∀ b ∈ target, 97 ≤ b ∧ b ≤ 122) :
    (processWord guess target).map colorMeaning = specTwoPass guess target :=
  processWord_eq_specTwoPass guess target (by rw [hg, ht])

theorem claim_C1_witness :
    (processWord [100,101,101,100,115] [115,112,101,101,100]).map colorMeaning
      = specTwoPass [100,101,101,100,115] [115,112,101,101,100] :=
  claim_C1 [100,101,101,100,115] [115,112,101,101,100]
    (by decide) (by decide) (by decide) (by decide)

/-- C2: for every guess and target of length `WORD_LEN` over lowercase
letters and every letter `c`, the guess positions holding `c` classified
Correct or Present number `min (occurrences of c in guess) (occurrences
of c in target)`; and guess `"deeds"` against target `"speed"` is
classified Present, Present, Correct, Absent, Present. -/
theorem claim_C2 (guess target : Word)
    (hg : guess.length = WORD_LEN) (ht : target.length = WORD_LEN)
    (hgl : ∀ b ∈ guess, 97 ≤ b ∧ b ≤ 122) (htl : ∀ b ∈ target, 97 ≤ b ∧ b ≤ 122) :
    (∀ c : Nat,
      List.countP
        (fun pc => decide (pc.1 = c) && decide (colorMeaning pc.2 ≠ Classification.Absent))
        (guess.zip (processWord guess target))
      = min (guess.count c) (target.count c))
    ∧ (processWord [100,101,101,100,115] [115,112,101,101,100]).map colorMeaning
      = [Classification.Present, Classification.Present, Classification.Correct,
         Classification.Absent, Classification.Present] := by
  constructor
  · intro c
    have e : (fun pc : Nat × Color =>
        decide (pc.1 = c) && decide (colorMeaning pc.2 ≠ Classification.Absent))
        = (fun pc : Nat × Color => decide (pc.1 = c) && ! decide (pc.2 = Color.defaultColor)) := by
      funext pc
      obtain ⟨a, col⟩ := pc
      cases col <;> simp [colorMeaning]
    rw [e]
    exact classified_count guess target (by rw [hg, ht]) c
  · decide

theorem claim_C2_witness :
    List.countP
      (fun pc => decide (pc.1 = 101) && decide (colorMeaning pc.2 ≠ Classification.Absent))
      (([100,101,101,100,115] : Word).zip (processWord [100,101,101,100,115] [115,112,101,101,100]))
    = min (([100,101,101,100,115] : Word).count 101) (([115,112,101,101,100] : Word).count 101) :=
  (claim_C2 [100,101,101,100,115] [115,112,101,101,100]
    (by decide) (by decide) (by decide) (by decide)).1 101

/-- C3, as stated, is false on the code: `main` picks the target word with
`chooseWord` from the word list in loaded order and only afterwards sorts
and duplicate-checks it, so for the loaded (unsorted) lexicon
`["baker","apple","candy"]` and seed 0 the target is `"baker"`, not the
word `"apple"` found at index 0 of the sorted, duplicate-checked
sequence. -/
theorem claim_C3_counterexample :
    mainStartup (encodeSource
        [[98,97,107,101,114],[97,112,112,108,101],[99,97,110,100,121]] false) 0
      = Except.ok ([98,97,107,101,114],
          some [[97,112,112,108,101],[98,97,107,101,114],[99,97,110,100,121]])
    ∧ ¬ [98,97,107,101,114]
        = ([[97,112,112,108,101],[98,97,107,101,114],[99,97,110,100,121]] : List Word).getD
            (chooseWordIndex 0 3) [] := by
  constructor
  · rw [mainStartup_encode _ false 0 (by decide) (by decide) (by decide)]
    rw [show chooseWord [[98,97,107,101,114],[97,112,112,108,101],[99,97,110,100,121]] 0
      = [98,97,107,101,114] from by decide]
    rw [sort_bac]
  · decide

/-- C3 (amended): the target word is selected from the lexicon in loaded
(unsorted) order — `chooseWord` returns the word at index
`(seed mod n) * M mod n` of the load-order sequence — and only afterwards
is the lexicon sorted into strictly ascending order and checked for
duplicates (for use in guess validation); for the already-sorted lexicon
`["apple","baker","candy"]` and seed 0 the target is still `"apple"`. -/
theorem claim_C3 :
    (∀ (ws : List Word) (tr : Bool) (seed : Nat), ws ≠ [] →
      (∀ w ∈ ws, lowercaseWord w) → ws.length ≤ WORD_LIMIT →
      mainStartup (encodeSource ws tr) seed = Except.ok (chooseWord ws seed, sort ws)
      ∧ chooseWord ws seed = ws.getD (chooseWordIndex seed ws.length) []
      ∧ ∀ s, sort ws = some s → List.Perm s ws ∧ List.Chain' wlt s)
    ∧ mainStartup (encodeSource
        [[97,112,112,108,101],[98,97,107,101,114],[99,97,110,100,121]] false) 0
      = Except.ok ([97,112,112,108,101],
          some [[97,112,112,108,101],[98,97,107,101,114],[99,97,110,100,121]]) := by
  constructor
  · intro ws tr seed hne hlow hlim
    refine ⟨mainStartup_encode ws tr seed hne hlow hlim, rfl, ?_⟩
    have hlen : 1 ≤ ws.length := by
      cases ws with
      | nil => exact absurd rfl hne
      | cons a l => simp
    exact (sort_spec ws hlen).2
  · rw [mainStartup_encode _ false 0 (by decide) (by decide) (by decide)]
    rw [show chooseWord [[97,112,112,108,101],[98,97,107,101,114],[99,97,110,100,121]] 0
      = [97,112,112,108,101] from by decide]
    rw [sort_abc]

theorem claim_C3_witness :
    mainStartup (encodeSource [[99,97,110,100,121],[97,112,112,108,101]] true) 7
      = Except.ok (chooseWord [[99,97,110,100,121],[97,112,112,108,101]] 7,
          sort [[99,97,110,100,121],[97,112,112,108,101]]) :=
  ((claim_C3.1 [[99,97,110,100,121],[97,112,112,108,101]] true 7
    (by decide) (by decide) (by decide))).1

/-- C4: for every lexicon of size `n`, `1 ≤ n ≤ 100000`, and every
non-negative seed below `2^63`, `chooseWord` copies out the word at index
`(seed mod n) * 4611686018453 mod n`; the C signed-64-bit evaluation of
that formula never wraps, so it is bit-exact; the index lies in `[0, n)`;
seed 0 selects index 0; `n = 1` selects index 0 for every seed; and the
selection is a function of lexicon and seed alone. -/
theorem claim_C4 (lex : List Word) (seed : Nat)
    (h1 : 1 ≤ lex.length) (h2 : lex.length ≤ WORD_LIMIT) (hseed : seed < 2 ^ 63) :
    chooseWordIndex seed lex.length = seed % lex.length * 4611686018453 % lex.length
    ∧ chooseWordIndex64 (seed : Int) (lex.length : Int)
        = ((chooseWordIndex seed lex.length : Nat) : Int)
    ∧ chooseWordIndex seed lex.length < lex.length
    ∧ chooseWordIndex 0 lex.length = 0
    ∧ (lex.length = 1 → chooseWordIndex seed lex.length = 0)
    ∧ chooseWord lex seed = lex.getD (chooseWordIndex seed lex.length) [] := by
  refine ⟨rfl, chooseWordIndex64_eq seed lex.length h1 h2 hseed,
    chooseWordIndex_lt seed lex.length h1, by simp [chooseWordIndex], ?_, rfl⟩
  intro hn
  rw [hn]
  simp [chooseWordIndex, Nat.mod_one]

theorem claim_C4_witness :
    chooseWordIndex64 ((7 : Nat) : Int) ((([[97,97,97,97,97]] : List Word).length : Nat) : Int)
      = ((chooseWordIndex 7 ([[97,97,97,97,97]] : List Word).length : Nat) : Int) :=
  (claim_C4 [[97,97,97,97,97]] 7 (by decide) (by decide) (by norm_num)).2.1

/-- C5: for every loaded word list of size at least 1, `sort()` fails
fatally with `DuplicateWord` exactly when the loaded multiset contains two
identical words; when it returns normally, the word list is a permutation
of the loaded words in strictly ascending `strcmp` order (every pair of
neighbours strictly increasing). -/
theorem claim_C5 (l : List Word) (h : 1 ≤ l.length) :
    (sort l = none ↔ ¬ l.Nodup) ∧
      ∀ s, sort l = some s → List.Perm s l ∧ List.Chain' wlt s :=
  sort_spec l h

theorem claim_C5_witness :
    sort [[98,97,107,101,114],[97,112,112,108,101],[98,97,107,101,114]] = none
      ↔ ¬ ([[98,97,107,101,114],[97,112,112,108,101],[98,97,107,101,114]] : List Word).Nodup :=
  (claim_C5 [[98,97,107,101,114],[97,112,112,108,101],[98,97,107,101,114]] (by decide)).1

/-- C6: for every word list in strictly ascending `strcmp` order and every
word of length `WORD_LEN`, `inList` returns true iff the word occurs in
the list. -/
theorem claim_C6 (list : List Word) (word : Word)
    (hsorted : List.Chain' wlt list) (hw : word.length = WORD_LEN) :
    inList list word = true ↔ word ∈ list :=
  inList_iff (List.chain'_iff_pairwise.mp hsorted)

theorem claim_C6_witness :
    inList [[97,112,112,108,101],[98,97,107,101,114],[99,97,110,100,121]] [97,112,112,108,101]
        = true
      ↔ [97,112,112,108,101]
          ∈ ([[97,112,112,108,101],[98,97,107,101,114],[99,97,110,100,121]] : List Word) :=
  claim_C6 [[97,112,112,108,101],[98,97,107,101,114],[99,97,110,100,121]] [97,112,112,108,101]
    (List.Chain'.cons (by decide) (List.Chain'.cons (by decide) (List.chain'_singleton _)))
    (by decide)

/-- C7: the claim demands that any terminator other than a line feed be a
fatal `InvalidWordFormat`, but the code stores `getc`'s result in a plain
`char`, so the byte `0xFF` after a record is read as `EOF`: the source
`"abcde"` followed by byte `0xFF` is not well-formed, yet `readWords`
accepts it and loads `["abcde"]`. -/
theorem claim_C7 :
    readWords [97, 98, 99, 100, 101, 255]
        = Except.ok ([[97, 98, 99, 100, 101]], INITIAL_CAPACITY)
    ∧ wellFormedSource [97, 98, 99, 100, 101, 255] = false := by
  constructor
  · unfold readWords
    rw [readWordsLoop_step (show readLine [97, 98, 99, 100, 101, 255] WORD_LEN
      = some ([97, 98, 99, 100, 101], [], false) from by decide)]
    rw [if_neg (by decide)]
    rfl
  · decide

/-- C8: for every word source whose records are all well-formed,
`readWords` fails fatally with `CapacityExceeded` iff the source holds
more than `WORD_LIMIT` words; a source of exactly `WORD_LIMIT` words
loads, its storage having grown from capacity 10 by doubling, capped at
`WORD_LIMIT`; and on every successful load the final capacity lies on the
doubling chain and covers the list. -/
theorem claim_C8 (ws : List Word) (tr : Bool) (hne : ws ≠ [])
    (hlow : ∀ w ∈ ws, lowercaseWord w) :
    (readWords (encodeSource ws tr) = Except.error LoadError.CapacityExceeded
      ↔ WORD_LIMIT < ws.length)
    ∧ (ws.length = WORD_LIMIT → readWords (encodeSource ws tr) = Except.ok (ws, WORD_LIMIT))
    ∧ (∀ res cap, readWords (encodeSource ws tr) = Except.ok (res, cap) →
        (∃ k, cap = min (INITIAL_CAPACITY * 2 ^ k) WORD_LIMIT) ∧ res.length ≤ cap) := by
  have hloop := readWordsLoop_encode ws tr [] INITIAL_CAPACITY hne hlow (by simp)
  simp only [List.length_nil, List.nil_append, Nat.zero_add] at hloop
  refine ⟨?_, ?_, ?_⟩
  · unfold readWords
    rw [hloop]
    by_cases hover : WORD_LIMIT < ws.length
    · rw [if_pos hover]
      simp [hover]
    · rw [if_neg hover]
      constructor
      · intro hc
        exact absurd hc (by simp)
      · intro hc
        exact absurd hc hover
  · intro hlen
    unfold readWords
    rw [hloop, if_neg (by omega)]
    have hcap := finalCapacity_spec ws.length 0 INITIAL_CAPACITY (by simp)
      ⟨0, by unfold INITIAL_CAPACITY WORD_LIMIT; norm_num⟩ (by omega)
    obtain ⟨hc1, k, hc2⟩ := hcap
    have hfin : finalCapacity 0 ws.length INITIAL_CAPACITY = WORD_LIMIT := by
      have hcle : finalCapacity 0 ws.length INITIAL_CAPACITY ≤ WORD_LIMIT := by
        rw [hc2]
        omega
      omega
    rw [hfin]
  · intro res cap h
    unfold readWords at h
    rw [hloop] at h
    by_cases hover : WORD_LIMIT < ws.length
    · rw [if_pos hover] at h
      exact Except.noConfusion h
    · rw [if_neg hover] at h
      obtain ⟨hres, hcap⟩ := Prod.mk.injEq .. ▸ Except.ok.inj h
      subst hres
      subst hcap
      have hcap2 := finalCapacity_spec ws.length 0 INITIAL_CAPACITY (by simp)
        ⟨0, by unfold INITIAL_CAPACITY WORD_LIMIT; norm_num⟩ (by omega)
      exact ⟨hcap2.2, by have := hcap2.1; omega⟩

theorem claim_C8_witness :
    readWords (encodeSource [[97,97,97,97,97]] false) = Except.error LoadError.CapacityExceeded
      ↔ WORD_LIMIT < ([[97,97,97,97,97]] : List Word).length :=
  (claim_C8 [[97,97,97,97,97]] false (by decide) (by decide)).1

/-- C9: `mergeSort` halts on every word list of length at least 1 (a fuel
of the list's length bounds its recursion depth, since for `n ≥ 2` both
halves, of sizes `n / 2` and `n - n / 2`, are strictly smaller than `n`
and at least 1, and `n = 1` is the base case), so `sort()` halts on every
lexicon a successful `readWords` produces; nonemptiness is necessary: on
the empty list the recursion never reaches the base case, whatever the
fuel. -/
theorem claim_C9 :
    (∀ l : List Word, 1 ≤ l.length → (mergeSortF l.length l).isSome = true)
    ∧ (∀ fuel : Nat, mergeSortF fuel ([] : List Word) = none)
    ∧ (∀ n : Nat, 2 ≤ n → 1 ≤ n / 2 ∧ n / 2 < n ∧ 1 ≤ n - n / 2 ∧ n - n / 2 < n)
    ∧ (∀ (input : List Nat) (res : List Word) (cap : Nat),
        readWords input = Except.ok (res, cap) → (mergeSortF res.length res).isSome = true) := by
    refine ⟨?_, mergeSortF_nil, fun n h => by omega, ?_⟩
    · intro l h
      obtain ⟨r, hr, _, _⟩ := mergeSortF_complete l.length l h le_rfl
      rw [hr]
      rfl
    · intro input res cap h
      obtain ⟨h1, _⟩ := readWordsLoop_ok_length input [] INITIAL_CAPACITY res cap h
      obtain ⟨r, hr, _, _⟩ := mergeSortF_complete res.length res (by simpa using h1) le_rfl
      rw [hr]
      rfl

theorem claim_C9_witness :
    (mergeSortF ([[97,97,97,97,97]] : List Word).length [[97,97,97,97,97]]).isSome = true :=
  claim_C9.1 [[97,97,97,97,97]] (by decide)

/-- C10: every successful `readWords` yields a lexicon of between 1 and
`WORD_LIMIT` words (the empty word source is rejected as a format error,
the first character read being `EOF` where a letter is required), so
`chooseWord`'s index stays in bounds; and `readWords` on the empty source
fails with `InvalidWordFormat`. -/
theorem claim_C10 :
    (∀ (input : List Nat) (res : List Word) (cap : Nat),
      readWords input = Except.ok (res, cap) →
      1 ≤ res.length ∧ res.length ≤ WORD_LIMIT
      ∧ ∀ seed : Nat, chooseWordIndex seed res.length < res.length)
    ∧ readWords [] = Except.error LoadError.InvalidWordFormat := by
  constructor
  · intro input res cap h
    obtain ⟨h1, h2⟩ := readWordsLoop_ok_length input [] INITIAL_CAPACITY res cap h
    have hge : 1 ≤ res.length := by simpa using h1
    exact ⟨hge, h2 (by simp), fun seed => chooseWordIndex_lt seed res.length hge⟩
  · unfold readWords
    rw [readWordsLoop]
    rfl

theorem claim_C10_witness :
    chooseWordIndex 12345 ([[97,97,97,97,97]] : List Word).length
      < ([[97,97,97,97,97]] : List Word).length :=
  (claim_C10.1 (encodeSource [[97,97,97,97,97]] false) [[97,97,97,97,97]]
    (finalCapacity 0 ([[97,97,97,97,97]] : List Word).length INITIAL_CAPACITY)
    (readWords_encode [[97,97,97,97,97]] false (by decide) (by decide) (by decide))).2.2 12345

end Wordle
